import Mathlib

/-!
Verification of the PlotLens alias-clustering engine (`src/engine/coref.py`).

This file gives a shallow embedding of the entity-catalog construction:
string normalization (`_norm_alias`), the difflib `SequenceMatcher.ratio`
similarity, the greedy per-mention assignment loop (`_cluster_aliases.add`),
the alias-dedupe post-pass, and the final catalog ordering used by
`build_entity_catalog`.  Mention and entity kinds keep the source's string
tags (`"PERSON"`, `"LOC"`, `"ORG"`, `"MISC"`); the specification's names
`LOCATION`/`ORGANIZATION`/`UNRESOLVED` correspond to `"LOC"`/`"ORG"`/`"MISC"`.

Modelling conventions:
* Python character classes (`\w`, `\s`, `str.strip`, `str.lower`) are
  embedded at ASCII scope, which covers every string the claims exercise.
* `difflib.SequenceMatcher(None, a, b).ratio()` is embedded by its
  documented semantics (longest matching block, earliest in `a` then in
  `b`, recursing left and right; ratio `2*M/T`, defined as `1` when `T = 0`)
  for inputs below the 200-character autojunk threshold.  Scores are exact
  rationals; the float comparison `score >= 0.86` is modelled as the exact
  comparison with `86/100`, which agrees with the double comparison for all
  denominators reachable at these string lengths.
-/

namespace PlotLens

/-! ### Python character predicates (ASCII scope) -/

/-- Python whitespace (`\s`, `str.strip`, `str.split`) at ASCII scope:
space, tab, newline, carriage return, vertical tab, form feed. -/
def isPySpace (c : Char) : Bool :=
  c = ' ' || c = '\t' || c = '\n' || c = '\r' || c.toNat = 11 || c.toNat = 12

/-- Python `\w` at ASCII scope: letters, digits, underscore. -/
def isWordChar (c : Char) : Bool :=
  c.isAlphanum || c = '_'

/-- A character the regex `[^\w\s'-]` leaves unchanged; all others are
replaced by a space. -/
def isKeptChar (c : Char) : Bool :=
  isWordChar c || isPySpace c || c = '\'' || c = '-'

/-! ### `_norm_alias` -/

/-- `s.strip()`: drop Python whitespace from both ends. -/
def pyStrip (l : List Char) : List Char :=
  ((l.dropWhile isPySpace).reverse.dropWhile isPySpace).reverse

/-- `_PUNCT_RE.sub(" ", s)`: replace each character not matched by
`[\w\s'-]` with a single space. -/
def punctToSpace (l : List Char) : List Char :=
  l.map (fun c => if isKeptChar c then c else ' ')

/-- Worker for `collapseWs`: the flag records whether the previous
character belonged to a whitespace run whose single space was already
emitted. -/
def collapseGo : Bool → List Char → List Char
  | _, [] => []
  | afterSpace, c :: cs =>
    if isPySpace c then
      (if afterSpace then [] else [' ']) ++ collapseGo true cs
    else c :: collapseGo false cs

/-- `re.sub(r"\s+", " ", s)`: collapse each whitespace run to one space. -/
def collapseWs (l : List Char) : List Char :=
  collapseGo false l

/-- `_norm_alias`: strip, replace punctuation by spaces, collapse
whitespace runs, lowercase.  The strip happens first, so punctuation at the
edges leaves a leading/trailing space in the normalized form, exactly as in
the source. -/
def normAlias (s : String) : String :=
  ⟨(collapseWs (punctToSpace (pyStrip s.data))).map Char.toLower⟩

/-- `len(s.split())`: number of maximal whitespace-free runs. -/
def countRuns : Bool → List Char → Nat
  | _, [] => 0
  | inTok, c :: cs =>
    if isPySpace c then countRuns false cs
    else (if inTok then 0 else 1) + countRuns true cs

/-- Token count of a surface string, as used by the canonical-replacement
rule (`len(m.text.split()) > len(g.canonical.split())`). -/
def numTokens (s : String) : Nat :=
  countRuns false s.data

/-! ### difflib `SequenceMatcher.ratio` -/

/-- Length of the longest common prefix of two character lists: the extent
of the matching block starting at a given pair of positions. -/
def matchLen : List Char → List Char → Nat
  | a :: as, b :: bs => if a = b then matchLen as bs + 1 else 0
  | _, _ => 0

/-- All start-position pairs `(i, j)`, `i` ranging over `a` (major) and `j`
over `b` (minor), in the scan order of `find_longest_match`. -/
def indexPairs (la lb : Nat) : List (Nat × Nat) :=
  (List.range la).flatMap (fun i => (List.range lb).map (fun j => (i, j)))

/-- One step of the longest-match scan: a strictly longer block replaces
the current best, so the earliest pair attaining the maximum is kept. -/
def flmStep (a b : List Char) (best : Nat × Nat × Nat) (p : Nat × Nat) :
    Nat × Nat × Nat :=
  let k := matchLen (a.drop p.1) (b.drop p.2)
  if best.2.2 < k then (p.1, p.2, k) else best

/-- `find_longest_match` over the whole strings: of all maximal matching
blocks, the one that starts earliest in `a`, then earliest in `b`;
`(0, 0, 0)` when there is no nonempty matching block. -/
def findLongestMatch (a b : List Char) : Nat × Nat × Nat :=
  (indexPairs a.length b.length).foldl (flmStep a b) (0, 0, 0)

/-- Total size of all matching blocks found by `get_matching_blocks`:
recursively take the longest match and recurse on the parts to its left
and to its right.  The fuel argument dominates the recursion depth; the
callers pass `a.length + b.length`, which always suffices because every
recursive call strictly shrinks the combined length. -/
def matchesTotal : Nat → List Char → List Char → Nat
  | 0, _, _ => 0
  | fuel + 1, a, b =>
    let t := findLongestMatch a b
    if t.2.2 = 0 then 0
    else
      matchesTotal fuel (a.take t.1) (b.take t.2.1) + t.2.2 +
        matchesTotal fuel (a.drop (t.1 + t.2.2)) (b.drop (t.2.1 + t.2.2))

/-- `SequenceMatcher(None, a, b).ratio() = 2*M/T` as an exact rational,
`1` when both strings are empty (difflib's `_calculate_ratio`). -/
def simRatio (a b : String) : ℚ :=
  if a.data.length + b.data.length = 0 then 1
  else
    mkRat (2 * (matchesTotal (a.data.length + b.data.length) a.data b.data : Int))
      (a.data.length + b.data.length)

/-! ### Data model -/

/-- One observed surface form (`Mention` dataclass): chapter, sentence
index, raw text, coarse kind tag (`"PERSON" | "LOC" | "ORG" | "MISC"`). -/
structure Mention where
  chapter : Int
  sent_idx : Nat
  text : String
  ent_type : String
  deriving DecidableEq, Repr

/-- A clustered identity (`Entity` dataclass). -/
structure Entity where
  id : String
  ent_type : String
  canonical : String
  aliases : List String
  first_chapter : Int
  last_chapter : Int
  mentions : List Mention
  deriving DecidableEq, Repr

instance : Inhabited Entity :=
  ⟨⟨"", "", "", [], 0, 0, []⟩⟩

/-- `_ent_priority`: kind priority table with default 9. -/
def entPriority (t : String) : Nat :=
  if t = "PERSON" then 0
  else if t = "LOC" then 1
  else if t = "ORG" then 2
  else if t = "MISC" then 3
  else 9

/-- The fixed pronoun whitelist from `_apply_coref`'s filter regex. -/
def pronounList : List String :=
  ["he", "him", "his", "she", "her", "hers", "they", "them", "their",
   "it", "its", "i", "me", "my", "we", "us", "our"]

/-! ### Alias clustering (`_cluster_aliases`) -/

/-- Kind coercion: `"PERSON" if m.ent_type in ("PERSON", "MISC") else
m.ent_type`. -/
def targetType (t : String) : String :=
  if t = "PERSON" || t = "MISC" then "PERSON" else t

/-- Similarity of a mention's normalized text against one entity: the
maximum over the entity's canonical name and aliases of the difflib ratio
between the candidate's normalized form and the mention's normalized text.
The `0` initial accumulator mirrors the source's `0.0` default and is
absorbed by the maximum because every ratio is nonnegative and the
candidate list `[g.canonical] + g.aliases` is never empty. -/
def entScore (mn : String) (g : Entity) : ℚ :=
  ((g.canonical :: g.aliases).map (fun c => simRatio (normAlias c) mn)).foldl max 0

/-- The best-candidate scan of `_cluster_aliases.add`: walk the entity
list with its indices, skip entities of a different kind, and replace the
accumulator exactly when the score strictly exceeds the best so far
(`best_i = -1` is modelled as `none`). -/
def bestScan (tt mn : String) : Nat → Option (Nat × Entity) × ℚ → List Entity →
    Option (Nat × Entity) × ℚ
  | _, acc, [] => acc
  | i, acc, g :: gs =>
    if g.ent_type ≠ tt then bestScan tt mn (i + 1) acc gs
    else if acc.2 < entScore mn g then
      bestScan tt mn (i + 1) (some (i, g), entScore mn g) gs
    else bestScan tt mn (i + 1) acc gs

/-- Replace the element at an index, leaving the list unchanged when the
index is out of range. -/
def modifyAt {α : Type} : List α → Nat → (α → α) → List α
  | [], _, _ => []
  | x :: xs, 0, f => f x :: xs
  | x :: xs, n + 1, f => x :: modifyAt xs n f

/-- The in-place mutations performed on `groups[best_i]` when a mention
merges: append to the mention log, widen the chapter range, add the raw
text as an alias when the mention is a genuine named span whose normalized
text differs from the current canonical and whose raw text is not already
an alias, then replace the canonical when the named mention has strictly
more whitespace tokens. -/
def mergeEntity (g : Entity) (m : Mention) : Entity :=
  let g1 : Entity :=
    { g with
      mentions := g.mentions ++ [m]
      first_chapter := min g.first_chapter m.chapter
      last_chapter := max g.last_chapter m.chapter }
  let g2 : Entity :=
    if m.ent_type ≠ "MISC" ∧ normAlias m.text ≠ normAlias g1.canonical ∧
        m.text ∉ g1.aliases then
      { g1 with aliases := g1.aliases ++ [m.text] }
    else g1
  if numTokens g2.canonical < numTokens m.text ∧ m.ent_type ≠ "MISC" then
    { g2 with canonical := m.text }
  else g2

/-- The entity created when a mention fails to merge: sequential id
`"E" ++ (len(groups)+1)`, coerced kind, canonical from the raw text, no
aliases, chapter range `[chapter, chapter]`, singleton mention log. -/
def freshEntity (n : Nat) (m : Mention) (tt : String) : Entity :=
  { id := "E" ++ toString (n + 1)
    ent_type := tt
    canonical := m.text
    aliases := []
    first_chapter := m.chapter
    last_chapter := m.chapter
    mentions := [m] }

/-- One step of the clustering pass (`add`): merge into the best-scoring
same-kind entity when `best_i >= 0` and the score reaches `0.86` or the
normalized text occurs among the best candidate's normalized alias and
canonical strings; otherwise append a fresh entity. -/
def addMention (gs : List Entity) (m : Mention) : List Entity :=
  let mn := normAlias m.text
  let tt := targetType m.ent_type
  match bestScan tt mn 0 (none, 0) gs with
  | (some (i, g), s) =>
    if mkRat 86 100 ≤ s ∨ mn ∈ (g.aliases ++ [g.canonical]).map normAlias then
      modifyAt gs i (fun g0 => mergeEntity g0 m)
    else gs ++ [freshEntity gs.length m tt]
  | (none, _) => gs ++ [freshEntity gs.length m tt]

/-- The main clustering loop, before the dedupe post-pass. -/
def clusterCore (ms : List Mention) : List Entity :=
  ms.foldl addMention []

/-- The dedupe loop of the post-pass, with the `seen` set of normalized
forms and the accumulated `uniq` list made explicit; it is run over
`[g.canonical] + g.aliases`. -/
def dedupeLoop (canon : String) :
    List String → List String → List String → List String
  | _, uniq, [] => uniq
  | seen, uniq, a :: rest =>
    let k := normAlias a
    if k ∈ seen then dedupeLoop canon seen uniq rest
    else dedupeLoop canon (k :: seen) (if a = canon then uniq else uniq ++ [a]) rest

/-- The post-pass applied to one entity: keep the aliases whose normalized
form was not seen before, dropping the canonical itself. -/
def dedupeEntity (g : Entity) : Entity :=
  { g with aliases := dedupeLoop g.canonical [] [] (g.canonical :: g.aliases) }

/-- The clustering contract `cluster`: the greedy pass followed by the
alias-dedupe post-pass. -/
def clusterAliases (ms : List Mention) : List Entity :=
  (clusterCore ms).map dedupeEntity

/-! ### Catalog assembly (`build_entity_catalog`) -/

/-- Lexicographic string comparison by code points, Python's `<=` on
`str` at ASCII scope (equal prefixes recurse, otherwise the first
differing character decides, a prefix precedes its extensions). -/
def charsLE : List Char → List Char → Bool
  | [], _ => true
  | _ :: _, [] => false
  | a :: as, b :: bs => if a = b then charsLE as bs else decide (a < b)

/-- The composite sort key comparison used by
`entities.sort(key=lambda e: (_ent_priority(e.ent_type), e.first_chapter,
e.id))`: lexicographic on (kind priority, first chapter, id *string*). -/
def entKeyLE (a b : Entity) : Prop :=
  entPriority a.ent_type < entPriority b.ent_type ∨
    (entPriority a.ent_type = entPriority b.ent_type ∧
      (a.first_chapter < b.first_chapter ∨
        (a.first_chapter = b.first_chapter ∧ charsLE a.id.data b.id.data = true)))

instance : DecidableRel entKeyLE := fun a b => by
  unfold entKeyLE; infer_instance

/-- The entity list of the final catalog: clustering followed by the
stable sort on the composite key (Python's `list.sort` is stable; so is
`List.mergeSort`). -/
def entityCatalog (ms : List Mention) : List Entity :=
  (clusterAliases ms).mergeSort (fun a b => decide (entKeyLE a b))

/-! ### Elementary facts about the similarity ratio -/

theorem matchLen_self (l : List Char) : matchLen l l = l.length := by
  induction l with
  | nil => rfl
  | cons c cs ih => simp [matchLen, ih]

theorem matchLen_le_left (a b : List Char) : matchLen a b ≤ a.length := by
  induction a generalizing b with
  | nil => cases b <;> simp [matchLen]
  | cons c cs ih =>
    cases b with
    | nil => simp [matchLen]
    | cons d ds =>
      by_cases h : c = d
      · simpa [matchLen, h] using ih ds
      · simp [matchLen, h]

theorem foldl_flmStep_fixed (a b : List Char) (best : Nat × Nat × Nat) :
    ∀ ps : List (Nat × Nat),
      (∀ p ∈ ps, matchLen (a.drop p.1) (b.drop p.2) ≤ best.2.2) →
      ps.foldl (flmStep a b) best = best := by
  intro ps
  induction ps with
  | nil => intro _; rfl
  | cons p ps ih =>
    intro h
    have hp : ¬ best.2.2 < matchLen (a.drop p.1) (b.drop p.2) :=
      Nat.not_lt.mpr (h p (List.mem_cons_self _ _))
    simp only [List.foldl_cons, flmStep, hp, if_false]
    exact ih fun q hq => h q (List.mem_cons_of_mem _ hq)

theorem indexPairs_zero_right (la : Nat) : indexPairs la 0 = [] := by
  simp [indexPairs]

theorem indexPairs_zero_left (lb : Nat) : indexPairs 0 lb = [] := by
  simp [indexPairs]

theorem findLongestMatch_nil_left (b : List Char) :
    findLongestMatch [] b = (0, 0, 0) := by
  simp [findLongestMatch, indexPairs_zero_left]

theorem findLongestMatch_nil_right (a : List Char) :
    findLongestMatch a [] = (0, 0, 0) := by
  simp [findLongestMatch, indexPairs_zero_right]

theorem findLongestMatch_self (d : List Char) (hd : d ≠ []) :
    findLongestMatch d d = (0, 0, d.length) := by
  obtain ⟨c, cs, rfl⟩ := List.exists_cons_of_ne_nil hd
  have hrange : List.range (c :: cs).length = 0 :: (List.range cs.length).map Nat.succ :=
    List.range_succ_eq_map cs.length
  have hpairs : ∃ t, indexPairs (c :: cs).length (c :: cs).length = (0, 0) :: t := by
    rw [indexPairs, hrange]
    simp [List.flatMap_cons, hrange]
  obtain ⟨t, ht⟩ := hpairs
  rw [findLongestMatch, ht]
  have hstep : flmStep (c :: cs) (c :: cs) (0, 0, 0) (0, 0) = (0, 0, (c :: cs).length) := by
    simp [flmStep, matchLen_self]
  rw [List.foldl_cons, hstep]
  exact foldl_flmStep_fixed _ _ _ t fun p _ =>
    le_trans (matchLen_le_left _ _) (by simp)

theorem matchesTotal_nil_nil (fuel : Nat) : matchesTotal fuel [] [] = 0 := by
  cases fuel with
  | zero => rfl
  | succ f => simp [matchesTotal, findLongestMatch_nil_left]

theorem matchesTotal_self (fuel : Nat) (d : List Char) :
    matchesTotal (fuel + 1) d d = d.length := by
  cases hd : d with
  | nil => simp [matchesTotal, findLongestMatch_nil_left]
  | cons c cs =>
    have hne : (c :: cs) ≠ [] := by simp
    simp only [matchesTotal, findLongestMatch_self _ hne]
    have hlen : (c :: cs).length ≠ 0 := by simp
    simp [hlen, matchesTotal_nil_nil, List.drop_length]

theorem matchesTotal_nil_right (fuel : Nat) (a : List Char) :
    matchesTotal fuel a [] = 0 := by
  cases fuel with
  | zero => rfl
  | succ f => simp [matchesTotal, findLongestMatch_nil_right]

/-- `ratio(s, s) = 1` for every string, including the empty string (where
difflib's `T = 0` convention applies). -/
theorem simRatio_self (s : String) : simRatio s s = 1 := by
  unfold simRatio
  by_cases h : s.data.length + s.data.length = 0
  · rw [if_pos h]
  · rw [if_neg h]
    have hfuel : matchesTotal (s.data.length + s.data.length) s.data s.data =
        s.data.length := by
      obtain ⟨f, hf⟩ : ∃ f, s.data.length + s.data.length = f + 1 :=
        ⟨s.data.length + s.data.length - 1, by omega⟩
      rw [hf, matchesTotal_self]
    rw [hfuel, Rat.mkRat_eq_div]
    have hn : s.data.length ≠ 0 := by omega
    have hpos : (0 : ℚ) < (s.data.length : ℚ) := by
      exact_mod_cast Nat.pos_of_ne_zero hn
    push_cast
    rw [two_mul]
    exact div_self (ne_of_gt (by linarith))

theorem simRatio_nonneg (a b : String) : 0 ≤ simRatio a b := by
  unfold simRatio
  by_cases h : a.data.length + b.data.length = 0
  · rw [if_pos h]; norm_num
  · rw [if_neg h, Rat.mkRat_eq_div]
    have h1 : (0 : Int) ≤
        2 * (matchesTotal (a.data.length + b.data.length) a.data b.data : Int) := by
      positivity
    have h2 : (0 : ℚ) ≤ ((a.data.length + b.data.length : Nat) : ℚ) := by positivity
    exact div_nonneg (by exact_mod_cast h1) h2

/-- An empty second string scores `0` against a nonempty first string:
there is no matching block and the denominator is positive. -/
theorem simRatio_nil_right (a b : String) (hb : b.data = []) (ha : a.data ≠ []) :
    simRatio a b = 0 := by
  have ha' : a.data.length ≠ 0 := fun hc => ha (List.length_eq_zero.mp hc)
  unfold simRatio
  rw [hb]
  have hlen : a.data.length + ([] : List Char).length ≠ 0 := by simpa using ha'
  rw [if_neg hlen, matchesTotal_nil_right, Rat.mkRat_eq_div]
  simp

/-! ### Facts about `entScore` -/

theorem foldl_max_init_le (l : List ℚ) (q : ℚ) : q ≤ l.foldl max q := by
  induction l generalizing q with
  | nil => exact le_refl q
  | cons x l ih => exact le_trans (le_max_left q x) (ih (max q x))

theorem foldl_max_le_of_mem {l : List ℚ} {x : ℚ} (hx : x ∈ l) (q : ℚ) :
    x ≤ l.foldl max q := by
  induction l generalizing q with
  | nil => cases hx
  | cons y l ih =>
    rcases List.mem_cons.mp hx with rfl | hmem
    · exact le_trans (le_max_right q x) (foldl_max_init_le l (max q x))
    · exact ih hmem (max q y)

theorem foldl_max_le {l : List ℚ} {b : ℚ} (h : ∀ x ∈ l, x ≤ b) {q : ℚ} (hq : q ≤ b) :
    l.foldl max q ≤ b := by
  induction l generalizing q with
  | nil => exact hq
  | cons x l ih =>
    exact ih (fun y hy => h y (List.mem_cons_of_mem _ hy))
      (max_le hq (h x (List.mem_cons_self _ _)))

theorem entScore_nonneg (mn : String) (g : Entity) : 0 ≤ entScore mn g :=
  foldl_max_init_le _ 0

theorem le_entScore_of_mem {mn : String} {g : Entity} {c : String}
    (hc : c ∈ g.canonical :: g.aliases) :
    simRatio (normAlias c) mn ≤ entScore mn g :=
  foldl_max_le_of_mem (List.mem_map_of_mem _ hc) 0

theorem entScore_le {mn : String} {g : Entity} {b : ℚ}
    (h : ∀ c ∈ g.canonical :: g.aliases, simRatio (normAlias c) mn ≤ b)
    (hb : 0 ≤ b) : entScore mn g ≤ b := by
  apply foldl_max_le _ hb
  intro x hx
  obtain ⟨c, hc, rfl⟩ := List.mem_map.mp hx
  exact h c hc

/-- An exact normalized match against any of an entity's candidate strings
forces the entity's score up to at least `1`. -/
theorem one_le_entScore_of_exact {mn : String} {g : Entity}
    (h : mn ∈ (g.aliases ++ [g.canonical]).map normAlias) :
    1 ≤ entScore mn g := by
  obtain ⟨c, hc, hceq⟩ := List.mem_map.mp h
  have hmem : c ∈ g.canonical :: g.aliases := by
    rcases List.mem_append.mp hc with h1 | h2
    · exact List.mem_cons_of_mem _ h1
    · simp at h2
      simp [h2]
  have h2 := @le_entScore_of_mem mn g c hmem
  rwa [hceq, simRatio_self] at h2

/-! ### Characterization of the best-candidate scan -/

/-- The scan either leaves the accumulator untouched (every same-kind score
in the remaining list is dominated by it) or returns the earliest entity
attaining the strict maximum of the remaining same-kind scores above the
accumulator. -/
theorem bestScan_go (tt mn : String) :
    ∀ (gs : List Entity) (i0 : Nat) (acc : Option (Nat × Entity) × ℚ), 0 ≤ acc.2 →
      (bestScan tt mn i0 acc gs = acc ∧
        ∀ k, k < gs.length → (gs.getD k default).ent_type = tt →
          entScore mn (gs.getD k default) ≤ acc.2) ∨
      (∃ k, k < gs.length ∧ (gs.getD k default).ent_type = tt ∧
        bestScan tt mn i0 acc gs =
          (some (i0 + k, gs.getD k default), entScore mn (gs.getD k default)) ∧
        acc.2 < entScore mn (gs.getD k default) ∧
        (∀ j, j < gs.length → (gs.getD j default).ent_type = tt →
          entScore mn (gs.getD j default) ≤ entScore mn (gs.getD k default)) ∧
        (∀ j, j < k → (gs.getD j default).ent_type = tt →
          entScore mn (gs.getD j default) < entScore mn (gs.getD k default))) := by
  intro gs
  induction gs with
  | nil =>
    intro i0 acc hacc
    left
    exact ⟨rfl, fun k hk => absurd hk (by simp)⟩
  | cons g gs ih =>
    intro i0 acc hacc
    by_cases hkind : g.ent_type = tt
    · by_cases hcmp : acc.2 < entScore mn g
      · have hres : bestScan tt mn i0 acc (g :: gs) =
            bestScan tt mn (i0 + 1) (some (i0, g), entScore mn g) gs := by
          simp [bestScan, hkind, hcmp]
        have hacc2 : (0 : ℚ) ≤ (some (i0, g), entScore mn g).2 :=
          le_of_lt (lt_of_le_of_lt hacc hcmp)
        rcases ih (i0 + 1) (some (i0, g), entScore mn g) hacc2 with
          ⟨heq, hall⟩ | ⟨k, hk, hkkind, heq, hgt, hball, hstrict⟩
        · right
          refine ⟨0, by simp, by simpa using hkind, ?_, by simpa using hcmp, ?_, ?_⟩
          · rw [hres, heq]; simp
          · intro j hj
            cases j with
            | zero => intro _; simp
            | succ j =>
              intro hjk
              simp only [List.getD_cons_succ] at hjk ⊢
              exact hall j (by simpa using hj) hjk
          · intro j hj; omega
        · right
          refine ⟨k + 1, by simpa using hk, by simpa using hkkind, ?_, ?_, ?_, ?_⟩
          · rw [hres, heq]
            simp only [List.getD_cons_succ]
            have harith : i0 + (k + 1) = i0 + 1 + k := by omega
            rw [harith]
          · simp only [List.getD_cons_succ]
            exact lt_trans hcmp hgt
          · intro j hj
            cases j with
            | zero =>
              intro _
              simp only [List.getD_cons_zero, List.getD_cons_succ]
              exact le_of_lt hgt
            | succ j =>
              intro hjk
              simp only [List.getD_cons_succ] at hjk ⊢
              exact hball j (by simpa using hj) hjk
          · intro j hj
            cases j with
            | zero =>
              intro _
              simp only [List.getD_cons_zero, List.getD_cons_succ]
              exact hgt
            | succ j =>
              intro hjk
              simp only [List.getD_cons_succ] at hjk ⊢
              exact hstrict j (by omega) hjk
      · have hres : bestScan tt mn i0 acc (g :: gs) = bestScan tt mn (i0 + 1) acc gs := by
          simp [bestScan, hkind, hcmp]
        rcases ih (i0 + 1) acc hacc with
          ⟨heq, hall⟩ | ⟨k, hk, hkkind, heq, hgt, hball, hstrict⟩
        · left
          refine ⟨by rw [hres, heq], ?_⟩
          intro k hk
          cases k with
          | zero =>
            intro _
            simpa using le_of_not_lt hcmp
          | succ k =>
            intro hkk
            simp only [List.getD_cons_succ] at hkk ⊢
            exact hall k (by simpa using hk) hkk
        · right
          refine ⟨k + 1, by simpa using hk, by simpa using hkkind, ?_, ?_, ?_, ?_⟩
          · rw [hres, heq]
            simp only [List.getD_cons_succ]
            have harith : i0 + (k + 1) = i0 + 1 + k := by omega
            rw [harith]
          · simpa only [List.getD_cons_succ] using hgt
          · intro j hj
            cases j with
            | zero =>
              intro _
              simp only [List.getD_cons_zero, List.getD_cons_succ]
              exact le_of_lt (lt_of_le_of_lt (le_of_not_lt hcmp) hgt)
            | succ j =>
              intro hjk
              simp only [List.getD_cons_succ] at hjk ⊢
              exact hball j (by simpa using hj) hjk
          · intro j hj
            cases j with
            | zero =>
              intro _
              simp only [List.getD_cons_zero, List.getD_cons_succ]
              exact lt_of_le_of_lt (le_of_not_lt hcmp) hgt
            | succ j =>
              intro hjk
              simp only [List.getD_cons_succ] at hjk ⊢
              exact hstrict j (by omega) hjk
    · have hres : bestScan tt mn i0 acc (g :: gs) = bestScan tt mn (i0 + 1) acc gs := by
        simp [bestScan, hkind]
      rcases ih (i0 + 1) acc hacc with
        ⟨heq, hall⟩ | ⟨k, hk, hkkind, heq, hgt, hball, hstrict⟩
      · left
        refine ⟨by rw [hres, heq], ?_⟩
        intro k hk
        cases k with
        | zero =>
          intro hkk
          exact absurd (by simpa using hkk) hkind
        | succ k =>
          intro hkk
          simp only [List.getD_cons_succ] at hkk ⊢
          exact hall k (by simpa using hk) hkk
      · right
        refine ⟨k + 1, by simpa using hk, by simpa using hkkind, ?_, ?_, ?_, ?_⟩
        · rw [hres, heq]
          simp only [List.getD_cons_succ]
          have harith : i0 + (k + 1) = i0 + 1 + k := by omega
          rw [harith]
        · simpa only [List.getD_cons_succ] using hgt
        · intro j hj
          cases j with
          | zero =>
            intro hjk
            exact absurd (by simpa using hjk) hkind
          | succ j =>
            intro hjk
            simp only [List.getD_cons_succ] at hjk ⊢
            exact hball j (by simpa using hj) hjk
        · intro j hj
          cases j with
          | zero =>
            intro hjk
            exact absurd (by simpa using hjk) hkind
          | succ j =>
            intro hjk
            simp only [List.getD_cons_succ] at hjk ⊢
            exact hstrict j (by omega) hjk

/-- Top-level corollary: a `none` result means every same-kind score is
dominated by `0`. -/
theorem bestScan_none_all_le {tt mn : String} {gs : List Entity} {s : ℚ}
    (h : bestScan tt mn 0 (none, 0) gs = (none, s)) :
    ∀ k, k < gs.length → (gs.getD k default).ent_type = tt →
      entScore mn (gs.getD k default) ≤ 0 := by
  rcases bestScan_go tt mn gs 0 (none, 0) (le_refl 0) with
    ⟨_, hall⟩ | ⟨k, _, _, heq, _, _, _⟩
  · exact hall
  · rw [heq] at h
    cases h

/-- Top-level corollary: a `some` result returns the entity at the
reported index, of the requested kind, with a positive score that weakly
dominates all same-kind scores and strictly dominates all earlier ones. -/
theorem bestScan_some_spec {tt mn : String} {gs : List Entity} {i : Nat}
    {g : Entity} {s : ℚ}
    (h : bestScan tt mn 0 (none, 0) gs = (some (i, g), s)) :
    i < gs.length ∧ gs.getD i default = g ∧ g.ent_type = tt ∧
      s = entScore mn g ∧ 0 < s ∧
      (∀ j, j < gs.length → (gs.getD j default).ent_type = tt →
        entScore mn (gs.getD j default) ≤ s) ∧
      (∀ j, j < i → (gs.getD j default).ent_type = tt →
        entScore mn (gs.getD j default) < s) := by
  rcases bestScan_go tt mn gs 0 (none, 0) (le_refl 0) with
    ⟨heq, _⟩ | ⟨k, hk, hkkind, heq, hgt, hball, hstrict⟩
  · rw [heq] at h
    cases h
  · rw [heq] at h
    have h1 : some (0 + k, gs.getD k default) = some (i, g) := congrArg Prod.fst h
    have h2 : entScore mn (gs.getD k default) = s := congrArg Prod.snd h
    have h3 : (0 + k, gs.getD k default) = (i, g) := Option.some.inj h1
    have hik : k = i := by simpa using congrArg Prod.fst h3
    have hg : gs.getD k default = g := congrArg Prod.snd h3
    subst hik
    subst hg
    subst h2
    exact ⟨hk, rfl, hkkind, rfl, hgt, hball, hstrict⟩

/-! ### The specification-side merge decision (for the refinement claim)

`specBestEnt` and `specAddMention` are written from the specification's
words (section 4.1, steps 3-7): score every existing entity of the target
kind, select the candidate with the strictly highest score (the earliest
on ties), and merge exactly when the best score reaches the threshold or
the mention's normalized text equals a normalized candidate string of the
best candidate; otherwise create one new entity holding only this
mention. -/

/-- Modelled from the spec: the best same-kind candidate (index, entity,
score), keeping the earlier candidate unless a later one scores strictly
higher; `none` when no entity of the target kind exists. -/
def specBestEnt (tt mn : String) : List Entity → Option (Nat × Entity × ℚ)
  | [] => none
  | g :: gs =>
    let rest := (specBestEnt tt mn gs).map (fun p => (p.1 + 1, p.2.1, p.2.2))
    if g.ent_type = tt then
      match rest with
      | none => some (0, g, entScore mn g)
      | some (i, g2, s) =>
        if entScore mn g < s then some (i, g2, s) else some (0, g, entScore mn g)
    else rest

/-- Modelled from the spec: the per-mention assignment decision of
section 4.1 — join the best candidate iff its score is at least `0.86` or
the mention's normalized text exactly equals a normalized candidate string
of the best candidate; otherwise append one new entity containing only
this mention. -/
def specAddMention (gs : List Entity) (m : Mention) : List Entity :=
  let mn := normAlias m.text
  let tt := targetType m.ent_type
  match specBestEnt tt mn gs with
  | some (i, g, s) =>
    if mkRat 86 100 ≤ s ∨ mn ∈ (g.canonical :: g.aliases).map normAlias then
      modifyAt gs i (fun g0 => mergeEntity g0 m)
    else gs ++ [freshEntity gs.length m tt]
  | none => gs ++ [freshEntity gs.length m tt]

/-- Characterization of `specBestEnt`: it is `none` exactly on lists with
no entity of the target kind, and otherwise returns the earliest entity
attaining the maximal same-kind score. -/
theorem specBestEnt_spec (tt mn : String) :
    ∀ gs : List Entity,
      (specBestEnt tt mn gs = none ∧
        ∀ k, k < gs.length → (gs.getD k default).ent_type ≠ tt) ∨
      (∃ k, k < gs.length ∧ (gs.getD k default).ent_type = tt ∧
        specBestEnt tt mn gs = some (k, gs.getD k default, entScore mn (gs.getD k default)) ∧
        (∀ j, j < gs.length → (gs.getD j default).ent_type = tt →
          entScore mn (gs.getD j default) ≤ entScore mn (gs.getD k default)) ∧
        (∀ j, j < k → (gs.getD j default).ent_type = tt →
          entScore mn (gs.getD j default) < entScore mn (gs.getD k default))) := by
  intro gs
  induction gs with
  | nil =>
    left
    exact ⟨rfl, fun k hk => absurd hk (by simp)⟩
  | cons g gs ih =>
    by_cases hkind : g.ent_type = tt
    · rcases ih with ⟨heq, hall⟩ | ⟨k, hk, hkkind, heq, hball, hstrict⟩
      · right
        refine ⟨0, by simp, by simpa using hkind, ?_, ?_, ?_⟩
        · simp [specBestEnt, heq, hkind]
        · intro j hj
          cases j with
          | zero => intro _; simp
          | succ j =>
            intro hjk
            exact absurd (by simpa using hjk) (hall j (by simpa using hj))
        · intro j hj; omega
      · by_cases hcmp : entScore mn g < entScore mn (gs.getD k default)
        · right
          refine ⟨k + 1, by simpa using hk, by simpa using hkkind, ?_, ?_, ?_⟩
          · have hstep : specBestEnt tt mn (g :: gs) =
                if entScore mn g < entScore mn (gs.getD k default) then
                  some (k + 1, gs.getD k default, entScore mn (gs.getD k default))
                else some (0, g, entScore mn g) := by
              simp [specBestEnt, heq, hkind]
            rw [hstep, if_pos hcmp]
            simp [List.getD_cons_succ]
          · intro j hj
            cases j with
            | zero =>
              intro _
              simp only [List.getD_cons_zero, List.getD_cons_succ]
              exact le_of_lt hcmp
            | succ j =>
              intro hjk
              simp only [List.getD_cons_succ] at hjk ⊢
              exact hball j (by simpa using hj) hjk
          · intro j hj
            cases j with
            | zero =>
              intro _
              simp only [List.getD_cons_zero, List.getD_cons_succ]
              exact hcmp
            | succ j =>
              intro hjk
              simp only [List.getD_cons_succ] at hjk ⊢
              exact hstrict j (by omega) hjk
        · right
          refine ⟨0, by simp, by simpa using hkind, ?_, ?_, ?_⟩
          · have hstep : specBestEnt tt mn (g :: gs) =
                if entScore mn g < entScore mn (gs.getD k default) then
                  some (k + 1, gs.getD k default, entScore mn (gs.getD k default))
                else some (0, g, entScore mn g) := by
              simp [specBestEnt, heq, hkind]
            rw [hstep, if_neg hcmp]
            simp
          · intro j hj
            cases j with
            | zero => intro _; simp
            | succ j =>
              intro hjk
              simp only [List.getD_cons_zero, List.getD_cons_succ] at hjk ⊢
              exact le_trans (hball j (by simpa using hj) hjk) (le_of_not_lt hcmp)
          · intro j hj; omega
    · rcases ih with ⟨heq, hall⟩ | ⟨k, hk, hkkind, heq, hball, hstrict⟩
      · left
        refine ⟨by simp [specBestEnt, heq, hkind], ?_⟩
        intro k hk
        cases k with
        | zero => simpa using hkind
        | succ k =>
          simp only [List.getD_cons_succ]
          exact hall k (by simpa using hk)
      · right
        refine ⟨k + 1, by simpa using hk, by simpa using hkkind, ?_, ?_, ?_⟩
        · simp [specBestEnt, heq, hkind]
        · intro j hj
          cases j with
          | zero =>
            intro hjk
            exact absurd (by simpa using hjk) hkind
          | succ j =>
            intro hjk
            simp only [List.getD_cons_succ] at hjk ⊢
            exact hball j (by simpa using hj) hjk
        · intro j hj
          cases j with
          | zero =>
            intro hjk
            exact absurd (by simpa using hjk) hkind
          | succ j =>
            intro hjk
            simp only [List.getD_cons_succ] at hjk ⊢
            exact hstrict j (by omega) hjk

/-! ### Unfolding the two merge decisions -/

theorem addMention_of_none {gs : List Entity} {m : Mention} {s : ℚ}
    (h : bestScan (targetType m.ent_type) (normAlias m.text) 0 (none, 0) gs = (none, s)) :
    addMention gs m = gs ++ [freshEntity gs.length m (targetType m.ent_type)] := by
  simp [addMention, h]

theorem addMention_of_some {gs : List Entity} {m : Mention} {i : Nat} {g : Entity} {s : ℚ}
    (h : bestScan (targetType m.ent_type) (normAlias m.text) 0 (none, 0) gs = (some (i, g), s)) :
    addMention gs m =
      if mkRat 86 100 ≤ s ∨
          normAlias m.text ∈ (g.aliases ++ [g.canonical]).map normAlias then
        modifyAt gs i (fun g0 => mergeEntity g0 m)
      else gs ++ [freshEntity gs.length m (targetType m.ent_type)] := by
  simp [addMention, h]

theorem specAddMention_of_none {gs : List Entity} {m : Mention}
    (h : specBestEnt (targetType m.ent_type) (normAlias m.text) gs = none) :
    specAddMention gs m = gs ++ [freshEntity gs.length m (targetType m.ent_type)] := by
  simp [specAddMention, h]

theorem specAddMention_of_some {gs : List Entity} {m : Mention} {i : Nat} {g : Entity} {s : ℚ}
    (h : specBestEnt (targetType m.ent_type) (normAlias m.text) gs = some (i, g, s)) :
    specAddMention gs m =
      if mkRat 86 100 ≤ s ∨
          normAlias m.text ∈ (g.canonical :: g.aliases).map normAlias then
        modifyAt gs i (fun g0 => mergeEntity g0 m)
      else gs ++ [freshEntity gs.length m (targetType m.ent_type)] := by
  simp [specAddMention, h]

/-- The exact-match pool `aliases + [canonical]` scanned by the source and
the pool `canonical :: aliases` named by the claim contain the same
normalized strings. -/
theorem mem_exact_pool_comm (mn : String) (g : Entity) :
    mn ∈ (g.canonical :: g.aliases).map normAlias ↔
      mn ∈ (g.aliases ++ [g.canonical]).map normAlias := by
  simp only [List.map_cons, List.map_append, List.map_cons, List.map_nil,
    List.mem_cons, List.mem_append, List.mem_singleton]
  tauto

theorem mkRat_threshold_pos : (0 : ℚ) < mkRat 86 100 := by
  rw [Rat.mkRat_eq_div]
  norm_num

/-- Claim C1 (confirmed): for every mention and every entity-list state,
the source's per-mention step agrees with the specification's merge
decision — the mention joins the best-scoring same-kind entity iff the
best score is at least `0.86` or the mention's normalized text equals a
normalized candidate string of the best candidate; in every other case
(including when no same-kind entity exists) exactly one new entity holding
only that mention is appended. -/
theorem claim1_merge_decision (gs : List Entity) (m : Mention) :
    addMention gs m = specAddMention gs m := by
  rcases hscan : bestScan (targetType m.ent_type) (normAlias m.text) 0 (none, 0) gs
    with ⟨ob, s⟩
  cases ob with
  | none =>
    have hall := bestScan_none_all_le hscan
    rcases specBestEnt_spec (targetType m.ent_type) (normAlias m.text) gs with
      ⟨hsp, _⟩ | ⟨k, hk, hkkind, hsp, _, _⟩
    · rw [addMention_of_none hscan, specAddMention_of_none hsp]
    · have hle : entScore (normAlias m.text) (gs.getD k default) ≤ 0 := hall k hk hkkind
      have hcond : ¬ (mkRat 86 100 ≤ entScore (normAlias m.text) (gs.getD k default) ∨
          normAlias m.text ∈
            ((gs.getD k default).canonical :: (gs.getD k default).aliases).map normAlias) := by
        rintro (hthr | hex)
        · exact absurd (lt_of_lt_of_le mkRat_threshold_pos hthr) (not_lt.mpr hle)
        · have h1 := one_le_entScore_of_exact ((mem_exact_pool_comm _ _).mp hex)
          linarith
      rw [addMention_of_none hscan, specAddMention_of_some hsp, if_neg hcond]
  | some ig =>
    obtain ⟨i, g⟩ := ig
    obtain ⟨hilen, hgetD, hkind, hs, _, hball, hstrict⟩ := bestScan_some_spec hscan
    rcases specBestEnt_spec (targetType m.ent_type) (normAlias m.text) gs with
      ⟨_, hnone⟩ | ⟨k, hk, hkkind, hsp, hball2, hstrict2⟩
    · exact absurd (hgetD ▸ hkind) (hnone i hilen)
    · have hik2 : i = k := by
        by_contra hne
        rcases Nat.lt_or_ge i k with hlt | hge
        · have h1 := hstrict2 i hlt (by rw [hgetD]; exact hkind)
          have h2 := hball k hk hkkind
          rw [hs] at h2
          rw [hgetD] at h1
          linarith
        · have hlt : k < i := lt_of_le_of_ne hge (Ne.symm hne)
          have h1 := hstrict k hlt hkkind
          have h2 := hball2 i hilen (by rw [hgetD]; exact hkind)
          rw [hs] at h1
          rw [hgetD] at h2
          linarith
      subst hik2
      rw [addMention_of_some hscan, specAddMention_of_some hsp]
      rw [hgetD, ← hs] at *
      by_cases hc : mkRat 86 100 ≤ s ∨
          normAlias m.text ∈ (g.aliases ++ [g.canonical]).map normAlias
      · rw [if_pos hc, if_pos]
        rcases hc with h1 | h2
        · exact Or.inl h1
        · exact Or.inr ((mem_exact_pool_comm _ _).mpr h2)
      · rw [if_neg hc, if_neg]
        intro hc2
        apply hc
        rcases hc2 with h1 | h2
        · exact Or.inl h1
        · exact Or.inr ((mem_exact_pool_comm _ _).mp h2)

/-! ### Frame lemmas for the merge mutations -/

theorem mergeEntity_mentions (g : Entity) (m : Mention) :
    (mergeEntity g m).mentions = g.mentions ++ [m] := by
  simp only [mergeEntity]
  split_ifs <;> rfl

theorem mergeEntity_first (g : Entity) (m : Mention) :
    (mergeEntity g m).first_chapter = min g.first_chapter m.chapter := by
  simp only [mergeEntity]
  split_ifs <;> rfl

theorem mergeEntity_last (g : Entity) (m : Mention) :
    (mergeEntity g m).last_chapter = max g.last_chapter m.chapter := by
  simp only [mergeEntity]
  split_ifs <;> rfl

theorem mergeEntity_aliases (g : Entity) (m : Mention) :
    (mergeEntity g m).aliases =
      if m.ent_type ≠ "MISC" ∧ normAlias m.text ≠ normAlias g.canonical ∧
          m.text ∉ g.aliases then
        g.aliases ++ [m.text]
      else g.aliases := by
  simp only [mergeEntity]
  split_ifs <;> rfl

theorem mergeEntity_canonical (g : Entity) (m : Mention) :
    (mergeEntity g m).canonical = m.text ∨ (mergeEntity g m).canonical = g.canonical := by
  simp only [mergeEntity]
  split_ifs <;> simp

/-! ### Membership through `modifyAt` and the clustering fold -/

theorem mem_modifyAt {α : Type} (l : List α) (n : Nat) (f : α → α) :
    ∀ x ∈ modifyAt l n f, x ∈ l ∨ ∃ y ∈ l, x = f y := by
  induction l generalizing n with
  | nil => intro x hx; cases hx
  | cons a l ih =>
    cases n with
    | zero =>
      intro x hx
      rcases List.mem_cons.mp hx with rfl | hmem
      · exact Or.inr ⟨a, List.mem_cons_self _ _, rfl⟩
      · exact Or.inl (List.mem_cons_of_mem _ hmem)
    | succ n =>
      intro x hx
      rcases List.mem_cons.mp hx with rfl | hmem
      · exact Or.inl (List.mem_cons_self _ _)
      · rcases ih n x hmem with h1 | ⟨y, hy, rfl⟩
        · exact Or.inl (List.mem_cons_of_mem _ h1)
        · exact Or.inr ⟨y, List.mem_cons_of_mem _ hy, rfl⟩

theorem mem_addMention (gs : List Entity) (m : Mention) :
    ∀ e ∈ addMention gs m,
      e ∈ gs ∨ (∃ g ∈ gs, e = mergeEntity g m) ∨
        e = freshEntity gs.length m (targetType m.ent_type) := by
  rcases hscan : bestScan (targetType m.ent_type) (normAlias m.text) 0 (none, 0) gs
    with ⟨ob, s⟩
  cases ob with
  | none =>
    rw [addMention_of_none hscan]
    intro e he
    rcases List.mem_append.mp he with h1 | h2
    · exact Or.inl h1
    · exact Or.inr (Or.inr (List.mem_singleton.mp h2))
  | some ig =>
    obtain ⟨i, g⟩ := ig
    rw [addMention_of_some hscan]
    split_ifs with hc
    · intro e he
      rcases mem_modifyAt gs i _ e he with h1 | ⟨y, hy, rfl⟩
      · exact Or.inl h1
      · exact Or.inr (Or.inl ⟨y, hy, rfl⟩)
    · intro e he
      rcases List.mem_append.mp he with h1 | h2
      · exact Or.inl h1
      · exact Or.inr (Or.inr (List.mem_singleton.mp h2))

/-- Any property established by entity creation and preserved by merging
holds for every entity of every reachable clustering state. -/
theorem clusterCore_invariant (P : Entity → Prop)
    (hfresh : ∀ (n : Nat) (m : Mention) (tt : String), P (freshEntity n m tt))
    (hmerge : ∀ (g : Entity) (m : Mention), P g → P (mergeEntity g m)) :
    ∀ (ms : List Mention) (gs : List Entity), (∀ e ∈ gs, P e) →
      ∀ e ∈ ms.foldl addMention gs, P e := by
  intro ms
  induction ms with
  | nil => exact fun gs h e he => h e he
  | cons m ms ih =>
    intro gs h
    rw [List.foldl_cons]
    apply ih
    intro e he
    rcases mem_addMention gs m e he with h1 | ⟨g, hg, rfl⟩ | rfl
    · exact h e h1
    · exact hmerge g m (h g hg)
    · exact hfresh _ _ _

/-- Every entity of the final catalog arises from a reachable clustering
state by the dedupe post-pass. -/
theorem mem_entityCatalog {ms : List Mention} {e : Entity}
    (he : e ∈ entityCatalog ms) :
    ∃ g ∈ clusterCore ms, e = dedupeEntity g := by
  have h1 : e ∈ clusterAliases ms := List.mem_mergeSort.mp he
  obtain ⟨g, hg, rfl⟩ := List.mem_map.mp h1
  exact ⟨g, hg, rfl⟩

theorem dedupeEntity_mentions (g : Entity) :
    (dedupeEntity g).mentions = g.mentions := rfl

theorem dedupeEntity_first (g : Entity) :
    (dedupeEntity g).first_chapter = g.first_chapter := rfl

theorem dedupeEntity_last (g : Entity) :
    (dedupeEntity g).last_chapter = g.last_chapter := rfl

theorem dedupeEntity_canonical (g : Entity) :
    (dedupeEntity g).canonical = g.canonical := rfl

/-! ### Claim C9: tie-breaking in the best-candidate selection -/

/-- Claim C9 (confirmed): the best-candidate selection resolves ties by
creation order — whenever the scan inside the clustering step selects
entity `g` at index `i` with score `s`, every earlier same-kind entity
scores strictly below `s` (so a later entity is selected only when it
strictly beats all earlier ones), and no same-kind entity scores above
`s`. -/
theorem claim9_tie_break {tt mn : String} {gs : List Entity} {i : Nat}
    {g : Entity} {s : ℚ}
    (h : bestScan tt mn 0 (none, 0) gs = (some (i, g), s)) :
    i < gs.length ∧ gs.getD i default = g ∧ g.ent_type = tt ∧ s = entScore mn g ∧
      (∀ j, j < i → (gs.getD j default).ent_type = tt →
        entScore mn (gs.getD j default) < s) ∧
      (∀ j, j < gs.length → (gs.getD j default).ent_type = tt →
        entScore mn (gs.getD j default) ≤ s) := by
  obtain ⟨h1, h2, h3, h4, _, h6, h7⟩ := bestScan_some_spec h
  exact ⟨h1, h2, h3, h4, h7, h6⟩

/-- Two same-kind entities with identical candidate strings, used to
exhibit a tie. -/
def entWitA : Entity := ⟨"E1", "PERSON", "ab", [], 1, 1, []⟩

/-- See `entWitA`. -/
def entWitB : Entity := ⟨"E2", "PERSON", "ab", [], 1, 1, []⟩

theorem claim9_witness :
    bestScan "PERSON" "ab" 0 (none, 0) [entWitA, entWitB] = (some (0, entWitA), 1) ∧
      [entWitA, entWitB].getD 0 default = entWitA ∧
      entWitA.ent_type = "PERSON" ∧
      (1 : ℚ) = entScore "ab" entWitA := by
  have h : bestScan "PERSON" "ab" 0 (none, 0) [entWitA, entWitB] =
      (some (0, entWitA), 1) := by decide
  obtain ⟨_, h2, h3, h4, _, _⟩ := claim9_tie_break h
  exact ⟨h, h2, h3, h4⟩

/-! ### Claim C7: the chapter-range invariant -/

/-- The range property preserved by the clustering pass. -/
def RangeInv (e : Entity) : Prop :=
  (∃ mm ∈ e.mentions, e.first_chapter = mm.chapter) ∧
  (∀ mm ∈ e.mentions, e.first_chapter ≤ mm.chapter) ∧
  (∃ mm ∈ e.mentions, e.last_chapter = mm.chapter) ∧
  (∀ mm ∈ e.mentions, mm.chapter ≤ e.last_chapter)

theorem rangeInv_fresh (n : Nat) (m : Mention) (tt : String) :
    RangeInv (freshEntity n m tt) := by
  refine ⟨⟨m, ?_, rfl⟩, ?_, ⟨m, ?_, rfl⟩, ?_⟩ <;>
    simp [freshEntity]

theorem rangeInv_merge (g : Entity) (m : Mention) (h : RangeInv g) :
    RangeInv (mergeEntity g m) := by
  obtain ⟨⟨m1, hm1, he1⟩, hall1, ⟨m2, hm2, he2⟩, hall2⟩ := h
  rw [RangeInv, mergeEntity_mentions, mergeEntity_first, mergeEntity_last]
  refine ⟨?_, ?_, ?_, ?_⟩
  · rcases le_total g.first_chapter m.chapter with hle | hle
    · exact ⟨m1, List.mem_append_left _ hm1, by rw [min_eq_left hle]; exact he1⟩
    · exact ⟨m, List.mem_append_right _ (List.mem_singleton.mpr rfl),
        by rw [min_eq_right hle]⟩
  · intro mm hmm
    rcases List.mem_append.mp hmm with h1 | h2
    · exact le_trans (min_le_left _ _) (hall1 mm h1)
    · rw [List.mem_singleton.mp h2]
      exact min_le_right _ _
  · rcases le_total g.last_chapter m.chapter with hle | hle
    · exact ⟨m, List.mem_append_right _ (List.mem_singleton.mpr rfl),
        by rw [max_eq_right hle]⟩
    · exact ⟨m2, List.mem_append_left _ hm2, by rw [max_eq_left hle]; exact he2⟩
  · intro mm hmm
    rcases List.mem_append.mp hmm with h1 | h2
    · exact le_trans (hall2 mm h1) (le_max_left _ _)
    · rw [List.mem_singleton.mp h2]
      exact le_max_right _ _

/-- Claim C7 (confirmed): for every input, every entity of the final
catalog has a nonempty mention log, `first_chapter` equal to the minimum
and `last_chapter` equal to the maximum of the chapters of its mentions,
and `first_chapter ≤ last_chapter`; the invariant is established at
creation and preserved by every merge, so it holds in every reachable
state. -/
theorem claim7_chapter_range (ms : List Mention) (e : Entity)
    (he : e ∈ entityCatalog ms) :
    e.mentions ≠ [] ∧
      (∃ mm ∈ e.mentions, e.first_chapter = mm.chapter) ∧
      (∀ mm ∈ e.mentions, e.first_chapter ≤ mm.chapter) ∧
      (∃ mm ∈ e.mentions, e.last_chapter = mm.chapter) ∧
      (∀ mm ∈ e.mentions, mm.chapter ≤ e.last_chapter) ∧
      e.first_chapter ≤ e.last_chapter := by
  obtain ⟨g, hg, rfl⟩ := mem_entityCatalog he
  have hinv : RangeInv g :=
    clusterCore_invariant RangeInv rangeInv_fresh rangeInv_merge ms []
      (fun e he0 => absurd he0 (List.not_mem_nil e)) g hg
  obtain ⟨⟨m1, hm1, he1⟩, hall1, ⟨m2, hm2, he2⟩, hall2⟩ := hinv
  rw [dedupeEntity_mentions, dedupeEntity_first, dedupeEntity_last]
  refine ⟨?_, ⟨m1, hm1, he1⟩, hall1, ⟨m2, hm2, he2⟩, hall2, ?_⟩
  · intro hnil
    rw [hnil] at hm1
    exact absurd hm1 (List.not_mem_nil m1)
  · rw [he1]
    exact hall2 m1 hm1

/-- The single-mention input of the specification's Scenario D. -/
def scenD : List Mention := [⟨3, 0, "Cha Hae-In", "PERSON"⟩]

/-- The entity Scenario D produces. -/
def entD : Entity :=
  ⟨"E1", "PERSON", "Cha Hae-In", [], 3, 3, [⟨3, 0, "Cha Hae-In", "PERSON"⟩]⟩

unseal List.merge List.mergeSort in
theorem claim7_witness :
    entD ∈ entityCatalog scenD ∧
      entD.mentions ≠ [] ∧
      (∃ mm ∈ entD.mentions, entD.first_chapter = mm.chapter) ∧
      (∀ mm ∈ entD.mentions, entD.first_chapter ≤ mm.chapter) ∧
      (∃ mm ∈ entD.mentions, entD.last_chapter = mm.chapter) ∧
      (∀ mm ∈ entD.mentions, mm.chapter ≤ entD.last_chapter) ∧
      entD.first_chapter ≤ entD.last_chapter := by
  have hcat : entityCatalog scenD = [entD] := rfl
  have hmem : entD ∈ entityCatalog scenD := by
    rw [hcat]
    exact List.mem_singleton.mpr rfl
  obtain ⟨h1, h2, h3, h4, h5, h6⟩ := claim7_chapter_range scenD entD hmem
  exact ⟨hmem, h1, h2, h3, h4, h5, h6⟩

/-! ### Claim C5: the alias-dedupe post-pass -/

/-- Modelled from the spec (post-pass): deduplicate the alias list by
normalized form — first occurrence wins, insertion order preserved — and
drop any alias whose normalized form equals the canonical's. -/
def specDedupe (c : String) : List String → List String → List String
  | _, [] => []
  | seen, a :: rest =>
    if normAlias a = normAlias c ∨ normAlias a ∈ seen then specDedupe c seen rest
    else a :: specDedupe c (normAlias a :: seen) rest

theorem dedupeLoop_append (canon : String) :
    ∀ (todo seen uniq : List String),
      dedupeLoop canon seen uniq todo = uniq ++ dedupeLoop canon seen [] todo := by
  intro todo
  induction todo with
  | nil => intro seen uniq; simp [dedupeLoop]
  | cons a rest ih =>
    intro seen uniq
    by_cases hk : normAlias a ∈ seen
    · simp only [dedupeLoop, if_pos hk]
      exact ih seen uniq
    · simp only [dedupeLoop, if_neg hk]
      by_cases hc : a = canon
      · simp only [if_pos hc]
        exact ih _ uniq
      · simp only [if_neg hc]
        rw [ih _ (uniq ++ [a]), ih _ ([] ++ [a])]
        simp

theorem dedupeLoop_eq_specDedupe (canon : String) :
    ∀ (rest seen seen2 : List String),
      (∀ x, x ∈ seen ↔ (x = normAlias canon ∨ x ∈ seen2)) →
      dedupeLoop canon seen [] rest = specDedupe canon seen2 rest := by
  intro rest
  induction rest with
  | nil => intro seen seen2 _; rfl
  | cons a rest ih =>
    intro seen seen2 hinv
    by_cases hk : normAlias a ∈ seen
    · have hsp : normAlias a = normAlias canon ∨ normAlias a ∈ seen2 :=
        (hinv (normAlias a)).mp hk
      simp only [dedupeLoop, if_pos hk, specDedupe, if_pos hsp]
      exact ih seen seen2 hinv
    · have hsp : ¬ (normAlias a = normAlias canon ∨ normAlias a ∈ seen2) :=
        fun hc => hk ((hinv (normAlias a)).mpr hc)
      have hac : a ≠ canon := by
        intro hac
        exact hsp (Or.inl (by rw [hac]))
      simp only [dedupeLoop, if_neg hk, if_neg hac, specDedupe, if_neg hsp]
      rw [dedupeLoop_append canon rest _ ([] ++ [a])]
      simp only [List.nil_append, List.singleton_append, List.cons.injEq, true_and]
      apply ih
      intro x
      simp only [List.mem_cons, hinv x]
      tauto

/-- The post-pass loop computes exactly the specification's first-wins
dedupe of the alias list. -/
theorem dedupeEntity_eq_specDedupe (g : Entity) :
    (dedupeEntity g).aliases = specDedupe g.canonical [] g.aliases := by
  show dedupeLoop g.canonical [] [] (g.canonical :: g.aliases) =
    specDedupe g.canonical [] g.aliases
  have h0 : normAlias g.canonical ∉ ([] : List String) := List.not_mem_nil _
  simp only [dedupeLoop, if_neg h0, if_pos rfl]
  apply dedupeLoop_eq_specDedupe
  intro x
  simp

theorem specDedupe_props (c : String) :
    ∀ (rest seen : List String),
      (∀ a ∈ specDedupe c seen rest, normAlias a ≠ normAlias c ∧ normAlias a ∉ seen) ∧
        (specDedupe c seen rest).Pairwise (fun x y => normAlias x ≠ normAlias y) := by
  intro rest
  induction rest with
  | nil => intro seen; exact ⟨fun a ha => absurd ha (List.not_mem_nil a), List.Pairwise.nil⟩
  | cons a rest ih =>
    intro seen
    by_cases hsp : normAlias a = normAlias c ∨ normAlias a ∈ seen
    · simpa only [specDedupe, if_pos hsp] using ih seen
    · obtain ⟨hmem, hpw⟩ := ih (normAlias a :: seen)
      simp only [specDedupe, if_neg hsp]
      constructor
      · intro b hb
        rcases List.mem_cons.mp hb with rfl | hb2
        · exact ⟨fun hc => hsp (Or.inl hc), fun hc => hsp (Or.inr hc)⟩
        · obtain ⟨hb3, hb4⟩ := hmem b hb2
          exact ⟨hb3, fun hc => hb4 (List.mem_cons_of_mem _ hc)⟩
      · refine List.Pairwise.cons ?_ hpw
        intro b hb
        obtain ⟨_, hb4⟩ := hmem b hb
        intro hc
        exact hb4 (by rw [← hc]; exact List.mem_cons_self _ _)

/-- Claim C5 (confirmed): after the post-pass, no two strings of
`{canonical} ∪ aliases` of any catalog entity share a normalized form, and
the post-pass keeps exactly the first occurrence of each normalized form
in insertion order (it equals the specification's first-wins dedupe). -/
theorem claim5_alias_dedupe :
    (∀ (ms : List Mention) (e : Entity), e ∈ entityCatalog ms →
      (e.canonical :: e.aliases).Pairwise (fun x y => normAlias x ≠ normAlias y)) ∧
      (∀ g : Entity, (dedupeEntity g).aliases = specDedupe g.canonical [] g.aliases) := by
  constructor
  · intro ms e he
    obtain ⟨g, _, rfl⟩ := mem_entityCatalog he
    rw [dedupeEntity_canonical]
    have heq := dedupeEntity_eq_specDedupe g
    rw [heq]
    obtain ⟨hmem, hpw⟩ := specDedupe_props g.canonical g.aliases []
    refine List.Pairwise.cons ?_ hpw
    intro b hb
    exact fun hc => (hmem b hb).1 hc.symm
  · exact dedupeEntity_eq_specDedupe

/-- An entity with a messy alias list: a normalized duplicate of the
canonical and raw-distinct aliases with equal normalized forms. -/
def aliasWitEnt : Entity :=
  ⟨"E1", "PERSON", "Bob", ["BOB", "Ali", "ali", "Ali"], 1, 1, []⟩

unseal List.merge List.mergeSort in
theorem claim5_witness :
    (entD.canonical :: entD.aliases).Pairwise (fun x y => normAlias x ≠ normAlias y) ∧
      (dedupeEntity aliasWitEnt).aliases =
        specDedupe aliasWitEnt.canonical [] aliasWitEnt.aliases ∧
      (dedupeEntity aliasWitEnt).aliases = ["Ali"] := by
  have hmem : entD ∈ entityCatalog scenD := by
    have hcat : entityCatalog scenD = [entD] := rfl
    rw [hcat]
    exact List.mem_singleton.mpr rfl
  exact ⟨claim5_alias_dedupe.1 scenD entD hmem, claim5_alias_dedupe.2 aliasWitEnt,
    by decide⟩

/-! ### Claim C6: the alias-insertion guard during the pass -/

/-- Three named mentions that leave an entity holding two aliases with the
same normalized form but different raw forms: `"Abcdefghi"` merges at
ratio `18/19` and is added as an alias; `"ABCDEFGHI"` then matches that
alias exactly (ratio `1`) and passes the raw-string membership check. -/
def dupAliasInput : List Mention :=
  [⟨1, 0, "Abcdefghij", "PERSON"⟩, ⟨1, 0, "Abcdefghi", "PERSON"⟩,
   ⟨1, 0, "ABCDEFGHI", "PERSON"⟩]

set_option maxRecDepth 400000 in
theorem claim6_counterexample :
    (clusterCore dupAliasInput).map (fun e => e.aliases) = [["Abcdefghi", "ABCDEFGHI"]] ∧
      normAlias "Abcdefghi" = normAlias "ABCDEFGHI" ∧
      "Abcdefghi" ≠ "ABCDEFGHI" := by
  exact ⟨by decide, by decide, by decide⟩

/-- Claim C6 (amended): the merge step adds the raw text as an alias iff
the mention is a named span whose normalized text differs from the current
canonical and whose *raw* text is not already an alias; consequently alias
lists stay duplicate-free as raw strings (but not as normalized forms)
throughout the clustering pass. -/
theorem claim6_alias_guard :
    (∀ (g : Entity) (m : Mention),
      (mergeEntity g m).aliases =
        if m.ent_type ≠ "MISC" ∧ normAlias m.text ≠ normAlias g.canonical ∧
            m.text ∉ g.aliases then
          g.aliases ++ [m.text]
        else g.aliases) ∧
      (∀ (ms : List Mention) (e : Entity), e ∈ clusterCore ms → e.aliases.Nodup) := by
  constructor
  · exact mergeEntity_aliases
  · intro ms e he
    refine clusterCore_invariant (fun e => e.aliases.Nodup) ?_ ?_ ms []
      (fun e he0 => absurd he0 (List.not_mem_nil e)) e he
    · intro n m tt
      simp [freshEntity]
    · intro g m hg
      rw [mergeEntity_aliases]
      split_ifs with hc
      · rw [List.nodup_append]
        refine ⟨hg, List.nodup_singleton _, ?_⟩
        intro a ha hb
        rw [List.mem_singleton.mp hb] at ha
        exact hc.2.2 ha
      · exact hg

theorem claim6_witness :
    (mergeEntity entWitA ⟨1, 0, "ab cd", "PERSON"⟩).aliases =
      (if (⟨1, 0, "ab cd", "PERSON"⟩ : Mention).ent_type ≠ "MISC" ∧
          normAlias (⟨1, 0, "ab cd", "PERSON"⟩ : Mention).text ≠ normAlias entWitA.canonical ∧
          (⟨1, 0, "ab cd", "PERSON"⟩ : Mention).text ∉ entWitA.aliases then
        entWitA.aliases ++ [(⟨1, 0, "ab cd", "PERSON"⟩ : Mention).text]
      else entWitA.aliases) ∧
      ∀ e ∈ clusterCore dupAliasInput, e.aliases.Nodup := by
  exact ⟨claim6_alias_guard.1 entWitA ⟨1, 0, "ab cd", "PERSON"⟩,
    fun e he => claim6_alias_guard.2 dupAliasInput e he⟩

/-! ### Claim C8: mentions with empty normalized text -/

/-- A whitespace-only mention arriving after an empty-text mention: both
normalize to the empty string, difflib scores the pair `1.0` by the
`T = 0` convention, and the second mention merges instead of founding a
new entity. -/
def emptyTextInput : List Mention :=
  [⟨1, 0, "", "PERSON"⟩, ⟨1, 0, " ", "PERSON"⟩]

theorem claim8_counterexample :
    normAlias " " = "" ∧
      simRatio (normAlias "") (normAlias " ") = 1 ∧
      (clusterCore emptyTextInput).length = 1 ∧
      (clusterCore emptyTextInput).length ≠ 2 := by
  exact ⟨by decide, by decide, by decide, by decide⟩

theorem getD_mem_of_lt {l : List Entity} {k : Nat} (hk : k < l.length) :
    l.getD k default ∈ l := by
  induction l generalizing k with
  | nil => cases hk
  | cons a l ih =>
    cases k with
    | zero => exact List.mem_cons_self _ _
    | succ k =>
      exact List.mem_cons_of_mem _ (ih (by simpa using hk))

/-- Claim C8 (amended): a mention whose text normalizes to the empty
string scores `0` against every same-kind entity all of whose candidate
strings have nonempty normalized forms, and in that situation it always
founds a new entity of its own; the unqualified claim fails when an
existing candidate string also normalizes to empty, where the ratio is `1`
and the mention merges (see the counterexample). -/
theorem claim8_empty_mention (gs : List Entity) (m : Mention)
    (hmn : normAlias m.text = "")
    (hcand : ∀ g ∈ gs, g.ent_type = targetType m.ent_type →
      ∀ c ∈ g.canonical :: g.aliases, normAlias c ≠ "") :
    (∀ g ∈ gs, g.ent_type = targetType m.ent_type →
      entScore (normAlias m.text) g = 0) ∧
      addMention gs m = gs ++ [freshEntity gs.length m (targetType m.ent_type)] := by
  have hscore : ∀ g ∈ gs, g.ent_type = targetType m.ent_type →
      entScore (normAlias m.text) g = 0 := by
    intro g hg hkind
    refine le_antisymm ?_ (entScore_nonneg _ _)
    apply entScore_le _ (le_refl 0)
    intro c hc
    have hc0 : normAlias c ≠ "" := hcand g hg hkind c hc
    have hr : simRatio (normAlias c) (normAlias m.text) = 0 := by
      apply simRatio_nil_right
      · rw [hmn]
      · intro hdata
        exact hc0 (String.ext (by rw [hdata]))
    rw [hr]
  refine ⟨hscore, ?_⟩
  rcases hscan : bestScan (targetType m.ent_type) (normAlias m.text) 0 (none, 0) gs
    with ⟨ob, s⟩
  cases ob with
  | none => exact addMention_of_none hscan
  | some ig =>
    obtain ⟨i, g⟩ := ig
    obtain ⟨hilen, hgetD, hkind, hs, hpos, _, _⟩ := bestScan_some_spec hscan
    have hmem : gs.getD i default ∈ gs := getD_mem_of_lt hilen
    have h0 : entScore (normAlias m.text) g = 0 := by
      rw [← hgetD]
      exact hscore _ hmem (by rw [hgetD]; exact hkind)
    rw [hs, h0] at hpos
    exact absurd hpos (lt_irrefl 0)

theorem claim8_witness :
    normAlias (⟨1, 0, "", "PERSON"⟩ : Mention).text = "" ∧
      addMention [entWitA] ⟨1, 0, "", "PERSON"⟩ =
        [entWitA] ++ [freshEntity 1 ⟨1, 0, "", "PERSON"⟩ "PERSON"] := by
  have h := claim8_empty_mention [entWitA] ⟨1, 0, "", "PERSON"⟩ (by decide) (by decide)
  exact ⟨by decide, h.2⟩

/-! ### Claim C10: only the incoming raw text can join the alias list -/

/-- A canonical replacement scenario: the two-token mention both becomes
an alias and replaces the canonical, so the post-pass drops the alias and
the superseded canonical `"Abcdefghij"` survives nowhere. -/
def canonReplaceInput : List Mention :=
  [⟨1, 0, "Abcdefghij", "PERSON"⟩, ⟨1, 0, "Abcdefghij K", "PERSON"⟩]

/-- The entity produced by `canonReplaceInput`. -/
def entCR : Entity :=
  ⟨"E1", "PERSON", "Abcdefghij K", [], 1, 1, canonReplaceInput⟩

set_option maxRecDepth 400000 in
unseal List.merge List.mergeSort in
theorem catalogCR_eq : entityCatalog canonReplaceInput = [entCR] := rfl

/-- Claim C10 (confirmed): a merge can only leave the alias list unchanged
or append the incoming mention's raw text — in particular a superseded
canonical is never added — and in the concrete replacement scenario the
former canonical `"Abcdefghij"` is absent from the final
`{canonical} ∪ aliases` even though the entity logs its mention. -/
theorem claim10_alias_frame :
    (∀ (g : Entity) (m : Mention),
      (mergeEntity g m).aliases = g.aliases ∨
        (mergeEntity g m).aliases = g.aliases ++ [m.text]) ∧
      entityCatalog canonReplaceInput = [entCR] ∧
      "Abcdefghij" ∉ entCR.canonical :: entCR.aliases ∧
      (∃ mm ∈ entCR.mentions, mm.text = "Abcdefghij") := by
  refine ⟨?_, catalogCR_eq, by decide, by decide⟩
  intro g m
  rw [mergeEntity_aliases]
  split_ifs
  · exact Or.inr rfl
  · exact Or.inl rfl

/-! ### Claims C2 and C3: Scenario A on the code -/

/-- The specification's Scenario A input (`UNRESOLVED` is the source's
`"MISC"`). -/
def scenarioA : List Mention :=
  [⟨1, 0, "Sung Jinwoo", "PERSON"⟩, ⟨1, 0, "Jinwoo", "PERSON"⟩, ⟨1, 0, "he", "MISC"⟩]

/-- The three entities the code actually produces on Scenario A. -/
def entA1 : Entity :=
  ⟨"E1", "PERSON", "Sung Jinwoo", [], 1, 1, [⟨1, 0, "Sung Jinwoo", "PERSON"⟩]⟩

/-- See `entA1`. -/
def entA2 : Entity :=
  ⟨"E2", "PERSON", "Jinwoo", [], 1, 1, [⟨1, 0, "Jinwoo", "PERSON"⟩]⟩

/-- See `entA1`. -/
def entA3 : Entity :=
  ⟨"E3", "PERSON", "he", [], 1, 1, [⟨1, 0, "he", "MISC"⟩]⟩

set_option maxRecDepth 400000 in
unseal List.merge List.mergeSort in
theorem catalogScenA_eq : entityCatalog scenarioA = [entA1, entA2, entA3] := rfl

set_option maxRecDepth 400000 in
theorem claim2_counterexample :
    (entityCatalog scenarioA).length = 3 ∧ (entityCatalog scenarioA).length ≠ 1 := by
  rw [catalogScenA_eq]
  exact ⟨rfl, by decide⟩

set_option maxRecDepth 400000 in
/-- Claim C2 (amended): on Scenario A the code produces three singleton
`PERSON` entities — `"Jinwoo"` does not merge into `"Sung Jinwoo"`
because their difflib ratio is `12/17 ≈ 0.706 < 0.86` and there is no
exact normalized match, and `"he"` then scores `0` against both and founds
its own entity. -/
theorem claim2_scenario_a :
    entityCatalog scenarioA = [entA1, entA2, entA3] ∧
      simRatio (normAlias "Sung Jinwoo") (normAlias "Jinwoo") = mkRat 12 17 ∧
      ¬ (mkRat 86 100 ≤ mkRat 12 17) := by
  exact ⟨catalogScenA_eq, by decide, by decide⟩

set_option maxRecDepth 400000 in
/-- Claim C3 (code bug): the catalog built from Scenario A contains an
entity whose canonical name is the pronoun `"he"` — a pronoun-only `MISC`
mention that matches nothing founds a fresh `PERSON` entity and its raw
pronoun text becomes the canonical, contradicting the non-leakage policy
and the source's own docstring ("Pronouns (MISC) will merge to the
best-scoring existing PERSON entity"). -/
theorem claim3_pronoun_leak :
    (∃ e ∈ entityCatalog scenarioA, normAlias e.canonical ∈ pronounList) ∧
      (entityCatalog scenarioA).map (fun e => e.canonical) =
        ["Sung Jinwoo", "Jinwoo", "he"] := by
  refine ⟨⟨entA3, ?_, by decide⟩, by rw [catalogScenA_eq]; rfl⟩
  rw [catalogScenA_eq]
  decide

/-! ### Claim C4: the final catalog ordering -/

/-- Ten mutually dissimilar one-token `PERSON` names in chapter 1: every
mention founds its own entity, so ten entities `E1` … `E10` tie on kind
priority and `first_chapter`, and the id *string* tie-break puts `"E10"`
before `"E2"`. -/
def tenNames : List Mention :=
  [⟨1, 0, "aa", "PERSON"⟩, ⟨1, 0, "bb", "PERSON"⟩, ⟨1, 0, "cc", "PERSON"⟩,
   ⟨1, 0, "dd", "PERSON"⟩, ⟨1, 0, "ee", "PERSON"⟩, ⟨1, 0, "ff", "PERSON"⟩,
   ⟨1, 0, "gg", "PERSON"⟩, ⟨1, 0, "hh", "PERSON"⟩, ⟨1, 0, "ii", "PERSON"⟩,
   ⟨1, 0, "jj", "PERSON"⟩]

set_option maxRecDepth 1000000 in
unseal List.merge List.mergeSort in
theorem catalogTen_ids :
    (entityCatalog tenNames).map (fun e => e.id) =
      ["E1", "E10", "E2", "E3", "E4", "E5", "E6", "E7", "E8", "E9"] := rfl

set_option maxRecDepth 1000000 in
unseal List.merge List.mergeSort in
theorem catalogTen_same_key :
    (entityCatalog tenNames).map
      (fun e => (entPriority e.ent_type, e.first_chapter)) =
      List.replicate 10 (0, 1) := rfl

theorem claim4_counterexample :
    (entityCatalog tenNames).map (fun e => e.id) =
      ["E1", "E10", "E2", "E3", "E4", "E5", "E6", "E7", "E8", "E9"] ∧
      (entityCatalog tenNames).map (fun e => e.id) ≠
        ["E1", "E2", "E3", "E4", "E5", "E6", "E7", "E8", "E9", "E10"] ∧
      (entityCatalog tenNames).map
        (fun e => (entPriority e.ent_type, e.first_chapter)) =
        List.replicate 10 (0, 1) := by
  refine ⟨catalogTen_ids, ?_, catalogTen_same_key⟩
  rw [catalogTen_ids]
  decide

theorem charsLE_trans :
    ∀ a b c : List Char, charsLE a b = true → charsLE b c = true →
      charsLE a c = true := by
  intro a
  induction a with
  | nil => intro b c _ _; rfl
  | cons x xs ih =>
    intro b c h1 h2
    cases b with
    | nil => simp [charsLE] at h1
    | cons y ys =>
      cases c with
      | nil => simp [charsLE] at h2
      | cons z zs =>
        by_cases hxy : x = y
        · subst hxy
          by_cases hyz : x = z
          · subst hyz
            rw [charsLE, if_pos rfl] at h1 h2 ⊢
            exact ih ys zs h1 h2
          · rw [charsLE, if_pos rfl] at h1
            rw [charsLE, if_neg hyz] at h2 ⊢
            exact h2
        · by_cases hyz : y = z
          · subst hyz
            rw [charsLE, if_neg hxy] at h1
            rw [charsLE, if_neg hxy]
            exact h1
          · rw [charsLE, if_neg hxy] at h1
            rw [charsLE, if_neg hyz] at h2
            have hlt1 : x < y := of_decide_eq_true h1
            have hlt2 : y < z := of_decide_eq_true h2
            have hlt : x < z := lt_trans hlt1 hlt2
            rw [charsLE, if_neg (ne_of_lt hlt)]
            exact decide_eq_true hlt

theorem charsLE_total :
    ∀ a b : List Char, charsLE a b = true ∨ charsLE b a = true := by
  intro a
  induction a with
  | nil => intro b; exact Or.inl rfl
  | cons x xs ih =>
    intro b
    cases b with
    | nil => exact Or.inr rfl
    | cons y ys =>
      by_cases hxy : x = y
      · subst hxy
        rcases ih ys with h | h
        · exact Or.inl (by rw [charsLE, if_pos rfl]; exact h)
        · exact Or.inr (by rw [charsLE, if_pos rfl]; exact h)
      · rcases lt_or_gt_of_ne hxy with hlt | hlt
        · exact Or.inl (by rw [charsLE, if_neg hxy]; exact decide_eq_true hlt)
        · refine Or.inr (by rw [charsLE, if_neg (Ne.symm hxy)]; exact decide_eq_true hlt)

theorem entKeyLE_trans {a b c : Entity} (h1 : entKeyLE a b) (h2 : entKeyLE b c) :
    entKeyLE a c := by
  unfold entKeyLE at h1 h2 ⊢
  rcases h1 with h1 | ⟨h1e, h1r⟩
  · rcases h2 with h2 | ⟨h2e, _⟩
    · exact Or.inl (lt_trans h1 h2)
    · exact Or.inl (by omega)
  · rcases h2 with h2 | ⟨h2e, h2r⟩
    · exact Or.inl (by omega)
    · refine Or.inr ⟨by omega, ?_⟩
      rcases h1r with h1r | ⟨h1c, h1s⟩
      · rcases h2r with h2r | ⟨h2c, _⟩
        · exact Or.inl (lt_trans h1r h2r)
        · exact Or.inl (by omega)
      · rcases h2r with h2r | ⟨h2c, h2s⟩
        · exact Or.inl (by omega)
        · exact Or.inr ⟨by omega, charsLE_trans _ _ _ h1s h2s⟩

theorem entKeyLE_total (a b : Entity) : entKeyLE a b ∨ entKeyLE b a := by
  unfold entKeyLE
  rcases Nat.lt_trichotomy (entPriority a.ent_type) (entPriority b.ent_type)
    with h | h | h
  · exact Or.inl (Or.inl h)
  · rcases Int.lt_trichotomy a.first_chapter b.first_chapter with hc | hc | hc
    · exact Or.inl (Or.inr ⟨h, Or.inl hc⟩)
    · rcases charsLE_total a.id.data b.id.data with hs | hs
      · exact Or.inl (Or.inr ⟨h, Or.inr ⟨hc, hs⟩⟩)
      · exact Or.inr (Or.inr ⟨h.symm, Or.inr ⟨hc.symm, hs⟩⟩)
    · exact Or.inr (Or.inr ⟨h.symm, Or.inl hc⟩)
  · exact Or.inr (Or.inl h)

/-- Claim C4 (amended): the final catalog is sorted by the composite key
(kind priority, then `first_chapter`, then the id *string* in
lexicographic order) and is a permutation of the clustered entities.  The
id tie-break is string order, not creation order: with ten or more
entities `"E10"` sorts before `"E2"` (see the counterexample), so the
claim's "creation order" reading fails. -/
theorem claim4_catalog_order (ms : List Mention) :
    (entityCatalog ms).Sorted entKeyLE ∧
      (entityCatalog ms).Perm (clusterAliases ms) := by
  constructor
  · have h := @List.sorted_mergeSort Entity
      (fun a b : Entity => decide (entKeyLE a b))
      (fun a b c hab hbc => decide_eq_true
        (entKeyLE_trans (of_decide_eq_true hab) (of_decide_eq_true hbc)))
      (fun a b => by
        rcases entKeyLE_total a b with h | h <;>
          simp [decide_eq_true h])
      (clusterAliases ms)
    exact h.imp fun hab => of_decide_eq_true hab
  · exact List.mergeSort_perm (clusterAliases ms) _

end PlotLens
